import Mathlib

/-!
Verification of `scripts/signfolder.py` (folder-manifest signing) against its
specification.  Strings and byte sequences are modelled as `List Nat`;
the cryptographic collaborators and the key loader (`UM.Trust.TrustBasics`,
external to the script) are modelled by a `Trust` structure of abstract
functions, and the filesystem below the signed folder by a tree `FSTree`
whose `os.walk` enumeration is made explicit by `walkTree`.  `signFolder`
models the computation up to the write; `signFolderRun` additionally models
the fallible persist step (`open`/`json.dump`).
-/

namespace UraniumSign

/-- Byte sequences / Python strings are modelled as lists of naturals. -/
abbrev Str := List Nat

/-- Bytes of a (ASCII) string literal, for concrete constants and inputs. -/
def strOf (s : String) : Str := s.data.map Char.toNat

/-- Byte-wise ascending lexicographic strict order on byte sequences, the
order in which Python's `sorted` lists the keys of the signature dict. -/
def lexLt : Str → Str → Bool
  | [], [] => false
  | [], _ :: _ => true
  | _ :: _, [] => false
  | a :: as, b :: bs => if a < b then true else if b < a then false else lexLt as bs

/-- The reflexive order `p ≤ q` on (key, signature) pairs: key of `q` is not
lexicographically below key of `p`. -/
def keyLe (p q : Str × Str) : Prop := lexLt q.1 p.1 = false

/-- The strict order on (key, signature) pairs, comparing keys only. -/
def keyLt (p q : Str × Str) : Prop := lexLt p.1 q.1 = true

instance : DecidableRel keyLe := fun p q => instDecidableEqBool (lexLt q.1 p.1) false

instance : DecidableRel keyLt := fun p q => instDecidableEqBool (lexLt p.1 q.1) true

/-- External cryptography and key-loading collaborators consumed by the
script (`TrustBasics.loadPrivateKey`, the hash primitive and the
sign-a-digest primitive).  They are opaque to the script, so the model
quantifies over them. -/
structure Trust where
  loadPrivateKey : Str → Option Str → Option Str
  hashBytes : Str → Str
  signDigest : Str → Str → Option Str

/-- Modelled from the spec: `TrustBasics.getRootSignatureCategory` (not under
`src/`), the fixed top-level field name `root_signatures` holding the
per-file mapping. -/
def getRootSignatureCategory : Str := strOf "root_signatures"

/-- Modelled from the spec: `TrustBasics.getRootSignedManifestKey` (not under
`src/`), the fixed top-level field name `root_manifest_signature` holding the
self-signature. -/
def getRootSignedManifestKey : Str := strOf "root_manifest_signature"

/-- Modelled from the spec: `TrustBasics.getSignaturesLocalFilename` (not
under `src/`), the fixed, well-known filename under which the manifest is
persisted at the root of the signed folder.  The spec fixes only that it is
a constant; the concrete value is immaterial to every claim. -/
def getSignaturesLocalFilename : Str := strOf "signature.json"

/-- Sort (key, signature) pairs by key, byte-wise ascending. -/
def sortPairs (l : List (Str × Str)) : List (Str × Str) := List.insertionSort keyLe l

/-- Concatenation, in sorted key order, of each key immediately followed by
its signature, with no delimiter. -/
def selfSignConcat (l : List (Str × Str)) : Str :=
  (sortPairs l).flatMap (fun p => p.1 ++ p.2)

/-- Modelled from the spec: `TrustBasics.getSelfSignHash` (not under `src/`):
the digest of the alphabetized, concatenated key/signature pairs
`key0signature0key1signature1...` of the per-file mapping. -/
def getSelfSignHash (T : Trust) (signatures : List (Str × Str)) : Str :=
  T.hashBytes (selfSignConcat signatures)

/-- Modelled from the spec: `TrustBasics.getHashSignature` (not under
`src/`): the signature of a digest under the private key. -/
def getHashSignature (T : Trust) (digest : Str) (private_key : Str) : Option Str :=
  T.signDigest digest private_key

/-- A regular file as encountered by the walk: its basename, its content,
and whether its symlink-resolved path escapes the signed root. -/
structure FileEntry where
  name : Str
  content : Str
  escapes : Bool
deriving DecidableEq, Repr

mutual
/-- A directory below the signed root: its regular files and subdirectories. -/
inductive FSTree where
  | node : List FileEntry → DirList → FSTree

/-- Named subdirectories of a directory, in `os.walk` enumeration order. -/
inductive DirList where
  | nil : DirList
  | cons : Str → FSTree → DirList → DirList
end

/-- One `(root, dirnames, filenames)` triple yielded by `os.walk`: the path
of the directory relative to the signed root (as segments), the directory's
basename (`os.path.basename(root)`), and its regular files. -/
structure WalkEntry where
  rel : List Str
  base : Str
  files : List FileEntry
deriving DecidableEq, Repr

mutual
/-- The top-down `os.walk(path, followlinks = True)` enumeration of a tree:
the triple of the directory itself, then those of its subtrees.  `dirnames`
is never pruned by the script, so the enumeration descends into every
subdirectory. -/
def walkTree (base : Str) : FSTree → List WalkEntry
  | .node files subdirs => ⟨[], base, files⟩ :: walkSubs subdirs

/-- Walk every subdirectory of a directory, in order, prefixing each yielded
relative path with the subdirectory's name. -/
def walkSubs : DirList → List WalkEntry
  | .nil => []
  | .cons n t rest =>
      (walkTree n t).map (fun e => ⟨n :: e.rel, e.base, e.files⟩) ++ walkSubs rest
end

/-- Join relative-path segments with the forward slash (byte 47). -/
def joinPath : List Str → Str
  | [] => []
  | [s] => s
  | s :: rest => s ++ (47 : Nat) :: joinPath rest

/-- Modelled from the spec: `TrustBasics.getFilePathInfo` (not under `src/`),
the PathCanonicalizer.  It yields the canonical forward-slash-separated key
of the file relative to the signed root, and fails (`PathOutsideRootError`)
when the symlink-resolved path escapes the root. -/
def getFilePathInfo (rel : List Str) (f : FileEntry) : Option Str :=
  if f.escapes then none else some (joinPath (rel ++ [f.name]))

/-- Modelled from the spec: `TrustBasics.getFileSignature` (not under
`src/`), the FileSigner: the signature, under the private key, of a digest
that is a function of the file's content and ties in the file's canonical
key (so that moving a correctly signed file to a different relative path,
without re-signing, invalidates it); `none` when the file cannot be read
or signed. -/
def getFileSignature (T : Trust) (name : Str) (f : FileEntry) (private_key : Str) :
    Option Str :=
  T.signDigest (T.hashBytes (name ++ f.content)) private_key

/-- Python dict assignment `signatures[name_in_data] = signature` on an
insertion-ordered association list: replace in place when the key is
present, append otherwise. -/
def dictInsert (d : List (Str × Str)) (key v : Str) : List (Str × Str) :=
  if d.any (fun p => decide (p.1 = key)) then
    d.map (fun p => if p.1 = key then (key, v) else p)
  else d ++ [(key, v)]

/-- The inner loop of `signFolder` over the filenames of one walk triple:
skip the manifest's own filename when directly at the root, canonicalize
(a path escaping the root raises, giving `none`), sign (a failed signature
gives `none`), and accumulate into the signature dict. -/
def processFiles (T : Trust) (private_key : Str) (rel : List Str) :
    List FileEntry → List (Str × Str) → Option (List (Str × Str))
  | [], acc => some acc
  | f :: fs, acc =>
    if f.name = getSignaturesLocalFilename ∧ rel = [] then
      processFiles T private_key rel fs acc
    else
      match getFilePathInfo rel f with
      | none => none
      | some key =>
        match getFileSignature T key f private_key with
        | none => none
        | some s => processFiles T private_key rel fs (dictInsert acc key s)

/-- The outer loop of `signFolder` over the `os.walk` triples: a triple whose
directory basename is in `ignore_folders` is skipped with `continue` (its
files only — the walk itself still descends below it); otherwise its files
are processed. -/
def processWalk (T : Trust) (private_key : Str) (ignore_folders : List Str) :
    List WalkEntry → List (Str × Str) → Option (List (Str × Str))
  | [], acc => some acc
  | e :: es, acc =>
    if e.base ∈ ignore_folders then processWalk T private_key ignore_folders es acc
    else
      match processFiles T private_key e.rel e.files acc with
      | none => none
      | some acc2 => processWalk T private_key ignore_folders es acc2

/-- `password = None if optional_password == "" else optional_password`. -/
def normalizePassword (optional_password : Option Str) : Option Str :=
  if optional_password = some [] then none else optional_password

/-- A top-level field of the persisted manifest document: either the
per-file mapping or the (possibly null) self-signature scalar. -/
inductive ManifestField where
  | mapping : List (Str × Str) → ManifestField
  | selfsig : Option Str → ManifestField
deriving DecidableEq, Repr

/-- The outcome of a `signFolder` run: the boolean the function returns, and
the manifest document persisted at the root, when one was written. -/
structure BuildOutcome where
  ok : Bool
  written : Option (List (Str × ManifestField))
deriving DecidableEq, Repr

/-- The model of `signFolder`.  The signed folder is given as its basename
`base` (the `os.path.basename` of the normalized `path` argument) together
with the tree `tree` below it; `T` supplies the external collaborators.
Mirrors the source line by line: normalize the password, load the private
key (failure returns `False`), walk and sign every eligible file (any
per-file failure or canonicalization exception returns `False` with nothing
written), self-sign the sorted concatenation digest, and persist the
two-field wrapped document. -/
def signFolder (T : Trust) (private_key_path : Str) (base : Str) (tree : FSTree)
    (ignore_folders : List Str) (optional_password : Option Str) : BuildOutcome :=
  match T.loadPrivateKey private_key_path (normalizePassword optional_password) with
  | none => ⟨false, none⟩
  | some private_key =>
    match processWalk T private_key ignore_folders (walkTree base tree) [] with
    | none => ⟨false, none⟩
    | some signatures =>
      let self_signature := getHashSignature T (getSelfSignHash T signatures) private_key
      ⟨true, some [(getRootSignatureCategory, ManifestField.mapping signatures),
                   (getRootSignedManifestKey, ManifestField.selfsig self_signature)]⟩

/-- The model of `mainfunc`: parse arguments, call `signFolder` (the
command line always supplies a string password, hence `some password`), and
fall off the end — a Python function without `return` returns `None`, so
the value of `signFolder` is discarded. -/
def mainfunc (T : Trust) (tree : FSTree) (pkp : Str) (folder : Str)
    (ignore_folders : List Str) (password : Str) : Option Nat :=
  match signFolder T pkp folder tree ignore_folders (some password) with
  | _ => none

/-- `sys.exit(x)` for `x` the value returned by `mainfunc`: `sys.exit(None)`
reports success (exit status 0), `sys.exit(n)` exits with status `n`. -/
def scriptExitStatus (r : Option Nat) : Nat :=
  match r with
  | none => 0
  | some n => n

/-- The per-file mapping of a persisted build outcome (empty when nothing
was written). -/
def writtenMapping (o : BuildOutcome) : List (Str × Str) :=
  match o.written with
  | some ((_, ManifestField.mapping m) :: _) => m
  | _ => []

/-- Every file the signing loop actually processes (in a non-ignored
directory, not the root manifest file) canonicalizes inside the root and
signs successfully. -/
def allFilesSignable (T : Trust) (private_key : Str) (ignore_folders : List Str)
    (ts : List WalkEntry) : Prop :=
  ∀ e ∈ ts, e.base ∉ ignore_folders →
    ∀ f ∈ e.files, ¬(f.name = getSignaturesLocalFilename ∧ e.rel = []) →
      f.escapes = false ∧
        getFileSignature T (joinPath (e.rel ++ [f.name])) f private_key ≠ none

/-- A concrete collaborator instance for concrete runs: the identity digest
and an append-the-key signer, always succeeding, with a fixed loaded key. -/
def idTrust : Trust :=
  { loadPrivateKey := fun _ _ => some [7]
    hashBytes := fun b => b
    signDigest := fun d k => some (d ++ k) }

/-- A collaborator whose private-key load always fails. -/
def noKeyTrust : Trust :=
  { loadPrivateKey := fun _ _ => none
    hashBytes := fun b => b
    signDigest := fun d k => some (d ++ k) }

/-- A folder `plugin` holding `__pycache__/cached.py` and
`__pycache__/sub/deep.py`, to be walked with `__pycache__` ignored. -/
def pycTree : FSTree :=
  FSTree.node []
    (DirList.cons (strOf "__pycache__")
      (FSTree.node [⟨strOf "cached.py", strOf "x", false⟩]
        (DirList.cons (strOf "sub")
          (FSTree.node [⟨strOf "deep.py", strOf "y", false⟩] DirList.nil)
          DirList.nil))
      DirList.nil)

/-- A folder holding only `sub/signature.json`: a file bearing the
manifest's persisted filename inside a subfolder. -/
def subManifestTree : FSTree :=
  FSTree.node []
    (DirList.cons (strOf "sub")
      (FSTree.node [⟨strOf "signature.json", strOf "m", false⟩] DirList.nil)
      DirList.nil)

/-- A folder holding a single symlinked file whose resolved target lies
outside the root. -/
def escTree : FSTree := FSTree.node [⟨strOf "evil", strOf "z", true⟩] DirList.nil

/-- The empty folder. -/
def emptyTree : FSTree := FSTree.node [] DirList.nil

/-- A subfolder `sub` holding a file bearing the manifest filename. -/
def rootManifestSubs : DirList :=
  DirList.cons (strOf "sub")
    (FSTree.node [⟨strOf "signature.json", strOf "m", false⟩] DirList.nil) DirList.nil

/-- A root-level file bearing the manifest filename. -/
def rootManifestFiles : List FileEntry := [⟨strOf "signature.json", strOf "m0", false⟩]

/-- The behavior of the environment during the persist step
(`open(json_filename, "w")` followed by `json.dump`): both succeed, `open`
itself raises (nothing is created), or `json.dump` raises after `open` has
already created/truncated the manifest file. -/
inductive WriteResult where
  | completed : WriteResult
  | openFailed : WriteResult
  | dumpFailed : WriteResult
deriving DecidableEq, Repr

/-- The manifest file left at the root after a run: none, the complete
two-field document, or a truncated fragment — `open(.., "w")` truncated or
created the file and the interrupted `json.dump` left only a prefix of the
document's serialization (whose exact bytes are immaterial here). -/
inductive FileState where
  | absent : FileState
  | complete : List (Str × ManifestField) → FileState
  | truncated : FileState
deriving DecidableEq, Repr

/-- The full run of `signFolder` including the fallible persist step,
returning the boolean the function returns together with the manifest file
left on disk.  Identical to `signFolder` up to the write: key-load failure
and any walk failure return `False` with nothing persisted; then the
two-field document is written under the environment's `WriteResult` — an
exception there is caught by the bare `except` and turned into a `False`
return, but a `json.dump` interrupted after `open` leaves a truncated
manifest file behind. -/
def signFolderRun (T : Trust) (private_key_path : Str) (base : Str) (tree : FSTree)
    (ignore_folders : List Str) (optional_password : Option Str)
    (w : WriteResult) : Bool × FileState :=
  match T.loadPrivateKey private_key_path (normalizePassword optional_password) with
  | none => (false, FileState.absent)
  | some private_key =>
    match processWalk T private_key ignore_folders (walkTree base tree) [] with
    | none => (false, FileState.absent)
    | some signatures =>
      let self_signature := getHashSignature T (getSelfSignHash T signatures) private_key
      let wrapped_signatures :=
        [(getRootSignatureCategory, ManifestField.mapping signatures),
         (getRootSignedManifestKey, ManifestField.selfsig self_signature)]
      match w with
      | WriteResult.completed => (true, FileState.complete wrapped_signatures)
      | WriteResult.openFailed => (false, FileState.absent)
      | WriteResult.dumpFailed => (false, FileState.truncated)

/-! ### Order lemmas for the byte-wise lexicographic comparison -/

theorem lexLt_asymm : ∀ a b : Str, lexLt a b = true → lexLt b a = false := by
  intro a
  induction a with
  | nil =>
    intro b h
    cases b with
    | nil => simp [lexLt] at h
    | cons x xs => simp [lexLt]
  | cons x xs ih =>
    intro b h
    cases b with
    | nil => simp [lexLt] at h
    | cons y ys =>
      simp only [lexLt] at h ⊢
      by_cases hxy : x < y
      · simp [hxy, Nat.lt_asymm hxy]
      · by_cases hyx : y < x
        · simp [hxy, hyx] at h
        · simp only [hxy, hyx, if_false] at h ⊢
          exact ih ys h

theorem lexLt_conn : ∀ a b : Str, lexLt a b = false → lexLt b a = false → a = b := by
  intro a
  induction a with
  | nil =>
    intro b h1 _
    cases b with
    | nil => rfl
    | cons x xs => simp [lexLt] at h1
  | cons x xs ih =>
    intro b h1 h2
    cases b with
    | nil => simp [lexLt] at h2
    | cons y ys =>
      simp only [lexLt] at h1 h2
      by_cases hxy : x < y
      · simp [hxy] at h1
      · by_cases hyx : y < x
        · simp [hxy, hyx] at h2
        · simp only [hxy, hyx, if_false] at h1 h2
          have hx : x = y := Nat.le_antisymm (Nat.not_lt.mp hyx) (Nat.not_lt.mp hxy)
          rw [hx, ih ys h1 h2]

theorem lexLt_trans : ∀ a b c : Str, lexLt a b = true → lexLt b c = true →
    lexLt a c = true := by
  intro a
  induction a with
  | nil =>
    intro b c _ hbc
    cases c with
    | nil =>
      cases b with
      | nil => simp [lexLt] at hbc
      | cons y ys => simp [lexLt] at hbc
    | cons z zs => simp [lexLt]
  | cons x xs ih =>
    intro b c hab hbc
    cases b with
    | nil => simp [lexLt] at hab
    | cons y ys =>
      cases c with
      | nil => simp [lexLt] at hbc
      | cons z zs =>
        simp only [lexLt] at hab hbc ⊢
        by_cases hxy : x < y
        · by_cases hyz : y < z
          · simp [Nat.lt_trans hxy hyz]
          · by_cases hzy : z < y
            · simp [hyz, hzy] at hbc
            · have : y = z := Nat.le_antisymm (Nat.not_lt.mp hzy) (Nat.not_lt.mp hyz)
              simp [← this, hxy]
        · by_cases hyx : y < x
          · simp [hxy, hyx] at hab
          · have hx : x = y := Nat.le_antisymm (Nat.not_lt.mp hyx) (Nat.not_lt.mp hxy)
            subst hx
            simp only [if_neg hxy, if_neg hyx, if_false] at hab
            by_cases hyz : x < z
            · simp [hyz]
            · by_cases hzy : z < x
              · simp [hyz, hzy] at hbc
              · simp only [hyz, hzy, if_false] at hbc ⊢
                exact ih ys zs hab hbc

instance : IsTotal (Str × Str) keyLe where
  total p q := by
    unfold keyLe
    cases hb : lexLt q.1 p.1 with
    | false => exact Or.inl rfl
    | true => exact Or.inr (lexLt_asymm _ _ hb)

instance : IsTrans (Str × Str) keyLe where
  trans p q r hpq hqr := by
    unfold keyLe at hpq hqr ⊢
    cases hra : lexLt r.1 p.1 with
    | false => rfl
    | true =>
      exfalso
      cases hqr2 : lexLt q.1 r.1 with
      | true =>
        have : lexLt q.1 p.1 = true := lexLt_trans _ _ _ hqr2 hra
        rw [hpq] at this
        exact Bool.false_ne_true this
      | false =>
        have heq : r.1 = q.1 := lexLt_conn _ _ hqr hqr2
        rw [heq] at hra
        rw [hpq] at hra
        exact Bool.false_ne_true hra

instance : IsAntisymm (Str × Str) keyLt where
  antisymm p q h1 h2 := by
    exfalso
    have hfa := lexLt_asymm _ _ h1
    rw [h2] at hfa
    exact Bool.noConfusion hfa

/-- On lists with pairwise-distinct keys, a weakly key-sorted list is
strictly key-sorted. -/
theorem pairwise_keyLt_of_sorted {l : List (Str × Str)}
    (hs : List.Sorted keyLe l) (hn : (l.map Prod.fst).Nodup) :
    List.Pairwise keyLt l := by
  have hne : l.Pairwise (fun p q : Str × Str => p.1 ≠ q.1) := List.pairwise_map.mp hn
  refine (List.Pairwise.and hs hne).imp ?_
  intro p q h
  rcases h with ⟨hle, hneq⟩
  cases hlt : lexLt p.1 q.1 with
  | true => exact hlt
  | false => exact absurd (lexLt_conn _ _ hlt hle) hneq

/-- Two per-file mappings holding the same pairs (in any order, with
distinct keys) sort to the same list. -/
theorem sortPairs_eq_of_perm {l1 l2 : List (Str × Str)} (hp : l1.Perm l2)
    (hnd : (l1.map Prod.fst).Nodup) : sortPairs l1 = sortPairs l2 := by
  have ps1 := List.perm_insertionSort keyLe l1
  have ps2 := List.perm_insertionSort keyLe l2
  have hperm : (sortPairs l1).Perm (sortPairs l2) := ps1.trans (hp.trans ps2.symm)
  have hs1 : List.Sorted keyLe (sortPairs l1) := List.sorted_insertionSort keyLe l1
  have hs2 : List.Sorted keyLe (sortPairs l2) := List.sorted_insertionSort keyLe l2
  have hnd2 : (l2.map Prod.fst).Nodup := (hp.map Prod.fst).nodup hnd
  have hq1 : ((sortPairs l1).map Prod.fst).Nodup := ((ps1.map Prod.fst).symm).nodup hnd
  have hq2 : ((sortPairs l2).map Prod.fst).Nodup := ((ps2.map Prod.fst).symm).nodup hnd2
  exact List.eq_of_perm_of_sorted hperm
    (pairwise_keyLt_of_sorted hs1 hq1) (pairwise_keyLt_of_sorted hs2 hq2)

/-- C6: the self-sign digest is independent of the per-file mapping's
in-memory insertion/iteration order: two mappings containing the same set
of (key, signature) pairs, in any orders, yield byte-identical digests. -/
theorem selfsign_digest_order_independent (T : Trust) (l1 l2 : List (Str × Str))
    (hp : l1.Perm l2) (hnd : (l1.map Prod.fst).Nodup) :
    getSelfSignHash T l1 = getSelfSignHash T l2 := by
  unfold getSelfSignHash selfSignConcat
  rw [sortPairs_eq_of_perm hp hnd]

theorem selfsign_digest_order_independent_witness :
    [(strOf "b", [2]), (strOf "a", [1])].Perm [(strOf "a", [1]), (strOf "b", [2])] ∧
    ([(strOf "b", [2]), (strOf "a", [1])].map Prod.fst).Nodup ∧
    getSelfSignHash idTrust [(strOf "b", [2]), (strOf "a", [1])] =
      getSelfSignHash idTrust [(strOf "a", [1]), (strOf "b", [2])] :=
  ⟨by decide, by decide,
    selfsign_digest_order_independent idTrust _ _ (by decide) (by decide)⟩

/-- The inner signing loop succeeds exactly when every non-skipped file of
the triple canonicalizes inside the root and signs successfully. -/
theorem processFiles_isSome_iff (T : Trust) (k : Str) (rel : List Str) :
    ∀ (fs : List FileEntry) (acc : List (Str × Str)),
      (processFiles T k rel fs acc).isSome = true ↔
        ∀ f ∈ fs, ¬(f.name = getSignaturesLocalFilename ∧ rel = []) →
          f.escapes = false ∧ getFileSignature T (joinPath (rel ++ [f.name])) f k ≠ none := by
  intro fs
  induction fs with
  | nil => intro acc; simp [processFiles]
  | cons g gs ih =>
    intro acc
    simp only [processFiles]
    by_cases hskip : g.name = getSignaturesLocalFilename ∧ rel = []
    · rw [if_pos hskip, ih acc, List.forall_mem_cons]
      exact ⟨fun h => ⟨fun hn => absurd hskip hn, h⟩, fun h => h.2⟩
    · rw [if_neg hskip]
      cases hesc : g.escapes with
      | true =>
        simp only [getFilePathInfo, hesc, if_true]
        simp [List.forall_mem_cons, hskip, hesc]
      | false =>
        simp only [getFilePathInfo, hesc, Bool.false_eq_true, if_false]
        cases hsig : getFileSignature T (joinPath (rel ++ [g.name])) g k with
        | none => simp [List.forall_mem_cons, hskip, hsig]
        | some s =>
          rw [ih (dictInsert acc (joinPath (rel ++ [g.name])) s), List.forall_mem_cons]
          simp [hskip, hesc, hsig]


/-- The outer signing loop succeeds exactly when every processed file of
every non-ignored triple canonicalizes inside the root and signs
successfully. -/
theorem processWalk_isSome_iff (T : Trust) (k : Str) (ign : List Str) :
    ∀ (ts : List WalkEntry) (acc : List (Str × Str)),
      (processWalk T k ign ts acc).isSome = true ↔ allFilesSignable T k ign ts := by
  intro ts
  induction ts with
  | nil => intro acc; simp [processWalk, allFilesSignable]
  | cons e es ih =>
    intro acc
    simp only [processWalk]
    by_cases hb : e.base ∈ ign
    · rw [if_pos hb, ih acc]
      unfold allFilesSignable
      rw [List.forall_mem_cons]
      exact ⟨fun h => ⟨fun hbn => absurd hb hbn, h⟩, fun h => h.2⟩
    · rw [if_neg hb]
      cases hpf : processFiles T k e.rel e.files acc with
      | none =>
        simp only [Option.isSome_none, Bool.false_eq_true, false_iff]
        intro hall
        have h2 := (processFiles_isSome_iff T k e.rel e.files acc).mpr
          (hall e (List.mem_cons_self e es) hb)
        rw [hpf] at h2
        exact Bool.noConfusion h2
      | some acc2 =>
        rw [ih acc2]
        unfold allFilesSignable
        rw [List.forall_mem_cons]
        constructor
        · intro h
          refine ⟨fun _ => ?_, h⟩
          exact (processFiles_isSome_iff T k e.rel e.files acc).mp (by rw [hpf]; rfl)
        · exact fun h => h.2

/-- The pre-write stage of the build is all-or-nothing: the intended
document exists exactly when `signFolder` reports success, which holds
exactly when the private key loaded and every processed file of the walk
canonicalized and signed successfully. -/
theorem build_all_or_nothing (T : Trust) (pkp base : Str) (tree : FSTree)
    (ign : List Str) (pw : Option Str) :
    (signFolder T pkp base tree ign pw).written.isSome
        = (signFolder T pkp base tree ign pw).ok ∧
    ((signFolder T pkp base tree ign pw).ok = true ↔
      ∃ k, T.loadPrivateKey pkp (normalizePassword pw) = some k ∧
        allFilesSignable T k ign (walkTree base tree)) := by
  unfold signFolder
  cases hk : T.loadPrivateKey pkp (normalizePassword pw) with
  | none =>
    refine ⟨rfl, ?_⟩
    constructor
    · intro h; exact Bool.noConfusion h
    · rintro ⟨k, hk2, -⟩; exact Option.noConfusion hk2
  | some k =>
    dsimp only
    cases hw : processWalk T k ign (walkTree base tree) [] with
    | none =>
      dsimp only
      refine ⟨rfl, ?_⟩
      constructor
      · intro h; exact Bool.noConfusion h
      · rintro ⟨k2, hk2, hall⟩
        injection hk2 with hk3
        subst hk3
        have h2 := (processWalk_isSome_iff T k ign (walkTree base tree) []).mpr hall
        rw [hw] at h2
        exact Bool.noConfusion h2
    | some sigs =>
      dsimp only
      refine ⟨rfl, ?_⟩
      constructor
      · intro _
        exact ⟨k, rfl,
          (processWalk_isSome_iff T k ign (walkTree base tree) []).mp (by rw [hw]; rfl)⟩
      · intro _; rfl

/-- When the persist step completes, the full-run model agrees with the
pre-write model `signFolder`: the returned boolean coincides and a complete
document is persisted exactly when `signFolder` records it as written. -/
theorem signFolderRun_completed_agrees (T : Trust) (pkp base : Str) (tree : FSTree)
    (ign : List Str) (pw : Option Str) :
    (signFolderRun T pkp base tree ign pw WriteResult.completed).1
        = (signFolder T pkp base tree ign pw).ok ∧
    (signFolderRun T pkp base tree ign pw WriteResult.completed).2
        = (match (signFolder T pkp base tree ign pw).written with
           | some doc => FileState.complete doc
           | none => FileState.absent) := by
  unfold signFolderRun signFolder
  cases T.loadPrivateKey pkp (normalizePassword pw) with
  | none => exact ⟨rfl, rfl⟩
  | some k =>
    dsimp only
    cases processWalk T k ign (walkTree base tree) [] with
    | none => exact ⟨rfl, rfl⟩
    | some sigs => exact ⟨rfl, rfl⟩

/-- C4 is violated by the code under a write-time exception: in a run in
which the key loads and every per-file signature succeeds but `json.dump`
raises after `open(.., "w")` (e.g. the disk fills up mid-write), the bare
`except` returns `False` — yet the manifest file has already been
created/truncated, so a truncated manifest file remains persisted, against
the claim's "no manifest file is persisted".  The salvageable universal
part holds: the build reports `True` exactly when a complete manifest
document was persisted. -/
theorem write_exception_leaves_truncated_manifest :
    signFolderRun idTrust (strOf "key.pem") (strOf "top") emptyTree [] none
        WriteResult.dumpFailed = (false, FileState.truncated) ∧
    signFolderRun idTrust (strOf "key.pem") (strOf "top") emptyTree [] none
        WriteResult.completed = (true, FileState.complete
          [(getRootSignatureCategory, ManifestField.mapping []),
           (getRootSignedManifestKey, ManifestField.selfsig (some [7]))]) ∧
    (∀ (T : Trust) (pkp base : Str) (tree : FSTree) (ign : List Str)
        (pw : Option Str) (w : WriteResult),
      (signFolderRun T pkp base tree ign pw w).1 = true ↔
        ∃ doc, (signFolderRun T pkp base tree ign pw w).2 = FileState.complete doc) := by
  refine ⟨by decide, by decide, ?_⟩
  intro T pkp base tree ign pw w
  unfold signFolderRun
  cases T.loadPrivateKey pkp (normalizePassword pw) with
  | none => simp
  | some k =>
    dsimp only
    cases processWalk T k ign (walkTree base tree) [] with
    | none => simp
    | some sigs =>
      dsimp only
      cases w <;> simp

/-- C2: a file reached by the build walk (in a non-ignored directory, not
the skipped root manifest file) whose symlink-resolved path lies outside
the signed root makes the build fail: `signFolder` returns `False` and no
manifest is persisted — the file is neither silently skipped nor signed. -/
theorem symlink_escape_fails_build (T : Trust) (pkp base : Str) (tree : FSTree)
    (ign : List Str) (pw : Option Str) (e : WalkEntry) (f : FileEntry)
    (he : e ∈ walkTree base tree) (hb : e.base ∉ ign) (hf : f ∈ e.files)
    (hesc : f.escapes = true)
    (hns : ¬(f.name = getSignaturesLocalFilename ∧ e.rel = [])) :
    (signFolder T pkp base tree ign pw).ok = false ∧
    (signFolder T pkp base tree ign pw).written = none := by
  unfold signFolder
  cases hk : T.loadPrivateKey pkp (normalizePassword pw) with
  | none => exact ⟨rfl, rfl⟩
  | some k =>
    dsimp only
    cases hw : processWalk T k ign (walkTree base tree) [] with
    | none => exact ⟨rfl, rfl⟩
    | some sigs =>
      exfalso
      have hall := (processWalk_isSome_iff T k ign (walkTree base tree) []).mp
        (by rw [hw]; rfl)
      have hgood := hall e he hb f hf hns
      rw [hesc] at hgood
      exact Bool.noConfusion hgood.1

theorem symlink_escape_fails_build_witness :
    (⟨[], strOf "top", [⟨strOf "evil", strOf "z", true⟩]⟩ : WalkEntry) ∈
        walkTree (strOf "top") escTree ∧
    (signFolder idTrust (strOf "key.pem") (strOf "top") escTree [] none).ok = false ∧
    (signFolder idTrust (strOf "key.pem") (strOf "top") escTree [] none).written = none :=
  ⟨by decide,
    symlink_escape_fails_build idTrust (strOf "key.pem") (strOf "top") escTree [] none
      ⟨[], strOf "top", [⟨strOf "evil", strOf "z", true⟩]⟩ ⟨strOf "evil", strOf "z", true⟩
      (by decide) (by decide) (by decide) (by decide) (by decide)⟩

/-- C1: the self-signature of the persisted manifest is the signature,
under the loaded private key, of the digest of the byte sequence obtained
by sorting all (key, signature) pairs by key in byte-wise ascending
lexicographic order and concatenating, in that order, each key immediately
followed by its signature with no delimiter. -/
theorem selfsign_digest_is_sorted_concat (T : Trust) (pkp base : Str) (tree : FSTree)
    (ign : List Str) (pw : Option Str) (k : Str) (sigs : List (Str × Str)) (s : Option Str)
    (hk : T.loadPrivateKey pkp (normalizePassword pw) = some k)
    (hw : (signFolder T pkp base tree ign pw).written =
      some [(getRootSignatureCategory, ManifestField.mapping sigs),
            (getRootSignedManifestKey, ManifestField.selfsig s)]) :
    s = T.signDigest
      (T.hashBytes ((List.insertionSort keyLe sigs).flatMap (fun p => p.1 ++ p.2))) k := by
  unfold signFolder at hw
  rw [hk] at hw
  dsimp only at hw
  cases hpw : processWalk T k ign (walkTree base tree) [] with
  | none =>
    rw [hpw] at hw
    exact Option.noConfusion hw
  | some m =>
    rw [hpw] at hw
    dsimp only at hw
    simp only [Option.some.injEq, List.cons.injEq, Prod.mk.injEq, and_true, true_and,
      ManifestField.mapping.injEq, ManifestField.selfsig.injEq] at hw
    obtain ⟨hm, hs⟩ := hw
    subst hm
    rw [← hs]
    rfl

theorem selfsign_digest_is_sorted_concat_witness :
    idTrust.loadPrivateKey (strOf "key.pem") (normalizePassword none) = some [7] ∧
    (signFolder idTrust (strOf "key.pem") (strOf "top") emptyTree [] none).written =
      some [(getRootSignatureCategory, ManifestField.mapping []),
            (getRootSignedManifestKey, ManifestField.selfsig (some [7]))] ∧
    some [7] = idTrust.signDigest
      (idTrust.hashBytes ((List.insertionSort keyLe
        ([] : List (Str × Str))).flatMap (fun p => p.1 ++ p.2))) [7] :=
  ⟨rfl, by decide,
    selfsign_digest_is_sorted_concat idTrust (strOf "key.pem") (strOf "top")
      emptyTree [] none [7] [] (some [7]) (by decide) (by decide)⟩

/-- C9: every persisted manifest document has exactly two top-level fields
with the fixed names `root_signatures` (the per-file mapping) and
`root_manifest_signature` (the self-signature). -/
theorem manifest_exactly_two_fields (T : Trust) (pkp base : Str) (tree : FSTree)
    (ign : List Str) (pw : Option Str) (doc : List (Str × ManifestField))
    (hw : (signFolder T pkp base tree ign pw).written = some doc) :
    doc.map Prod.fst = [strOf "root_signatures", strOf "root_manifest_signature"] ∧
    ∃ m s, doc = [(getRootSignatureCategory, ManifestField.mapping m),
                  (getRootSignedManifestKey, ManifestField.selfsig s)] := by
  unfold signFolder at hw
  cases hk : T.loadPrivateKey pkp (normalizePassword pw) with
  | none =>
    rw [hk] at hw
    exact Option.noConfusion hw
  | some k =>
    rw [hk] at hw
    dsimp only at hw
    cases hpw : processWalk T k ign (walkTree base tree) [] with
    | none =>
      rw [hpw] at hw
      exact Option.noConfusion hw
    | some m =>
      rw [hpw] at hw
      dsimp only at hw
      injection hw with hdoc
      subst hdoc
      exact ⟨rfl, m, _, rfl⟩

theorem manifest_exactly_two_fields_witness :
    (signFolder idTrust (strOf "key.pem") (strOf "top") emptyTree [] none).written =
      some [(getRootSignatureCategory, ManifestField.mapping []),
            (getRootSignedManifestKey, ManifestField.selfsig (some [7]))] ∧
    ([(getRootSignatureCategory, ManifestField.mapping []),
      (getRootSignedManifestKey, ManifestField.selfsig (some [7]))].map Prod.fst
        = [strOf "root_signatures", strOf "root_manifest_signature"] ∧
     ∃ m s, [(getRootSignatureCategory, ManifestField.mapping []),
             (getRootSignedManifestKey, ManifestField.selfsig (some [7]))]
        = [(getRootSignatureCategory, ManifestField.mapping m),
           (getRootSignedManifestKey, ManifestField.selfsig s)]) :=
  ⟨by decide,
    manifest_exactly_two_fields idTrust (strOf "key.pem") (strOf "top") emptyTree [] none
      [(getRootSignatureCategory, ManifestField.mapping []),
       (getRootSignedManifestKey, ManifestField.selfsig (some [7]))] (by decide)⟩

/-- C10: an empty-string password is forwarded to the private-key loader as
no password at all, and the whole build behaves identically under an
empty-string password and under no password. -/
theorem empty_password_treated_as_none (T : Trust) (pkp base : Str) (tree : FSTree)
    (ign : List Str) :
    normalizePassword (some []) = none ∧
    signFolder T pkp base tree ign (some []) = signFolder T pkp base tree ign none :=
  ⟨rfl, rfl⟩

theorem empty_password_treated_as_none_witness :
    normalizePassword (some []) = none ∧
    signFolder idTrust (strOf "key.pem") (strOf "top") emptyTree [] (some []) =
      signFolder idTrust (strOf "key.pem") (strOf "top") emptyTree [] none :=
  empty_password_treated_as_none idTrust (strOf "key.pem") (strOf "top") emptyTree []

/-- Processing a list of files that are all skipped leaves the signature
dict unchanged and succeeds. -/
theorem processFiles_all_skipped (T : Trust) (k : Str) (rel : List Str) :
    ∀ (fs : List FileEntry) (acc : List (Str × Str)),
      (∀ f ∈ fs, f.name = getSignaturesLocalFilename ∧ rel = []) →
      processFiles T k rel fs acc = some acc := by
  intro fs
  induction fs with
  | nil => intro acc _; rfl
  | cons g gs ih =>
    intro acc h
    have hg := h g (List.mem_cons_self g gs)
    simp only [processFiles, if_pos hg]
    exact ih acc (fun f hf => h f (List.mem_cons_of_mem g hf))

/-- Walking triples none of which contributes a processed file leaves the
signature dict unchanged and succeeds. -/
theorem processWalk_all_skipped (T : Trust) (k : Str) (ign : List Str) :
    ∀ (ts : List WalkEntry) (acc : List (Str × Str)),
      (∀ e ∈ ts, e.base ∉ ign →
        ∀ f ∈ e.files, f.name = getSignaturesLocalFilename ∧ e.rel = []) →
      processWalk T k ign ts acc = some acc := by
  intro ts
  induction ts with
  | nil => intro acc _; rfl
  | cons e es ih =>
    intro acc h
    simp only [processWalk]
    by_cases hb : e.base ∈ ign
    · rw [if_pos hb]
      exact ih acc (fun e2 he2 => h e2 (List.mem_cons_of_mem e he2))
    · rw [if_neg hb,
        processFiles_all_skipped T k e.rel e.files acc (h e (List.mem_cons_self e es) hb)]
      exact ih acc (fun e2 he2 => h e2 (List.mem_cons_of_mem e he2))

/-- C8: a root containing no eligible files builds successfully:
`signFolder` returns `True` and persists a manifest whose per-file mapping
is empty and whose self-signature is the signature over the digest of the
empty concatenation. -/
theorem empty_folder_build_succeeds (T : Trust) (pkp base : Str) (tree : FSTree)
    (ign : List Str) (pw : Option Str) (k : Str)
    (hk : T.loadPrivateKey pkp (normalizePassword pw) = some k)
    (hempty : ∀ e ∈ walkTree base tree, e.base ∉ ign →
      ∀ f ∈ e.files, f.name = getSignaturesLocalFilename ∧ e.rel = []) :
    signFolder T pkp base tree ign pw =
      ⟨true, some [(getRootSignatureCategory, ManifestField.mapping []),
                   (getRootSignedManifestKey,
                     ManifestField.selfsig (T.signDigest (T.hashBytes []) k))]⟩ := by
  unfold signFolder
  rw [hk]
  dsimp only
  rw [processWalk_all_skipped T k ign (walkTree base tree) [] hempty]
  rfl

theorem empty_folder_build_succeeds_witness :
    idTrust.loadPrivateKey (strOf "key.pem") (normalizePassword none) = some [7] ∧
    signFolder idTrust (strOf "key.pem") (strOf "top") emptyTree [] none =
      ⟨true, some [(getRootSignatureCategory, ManifestField.mapping []),
                   (getRootSignedManifestKey,
                     ManifestField.selfsig (idTrust.signDigest (idTrust.hashBytes []) [7]))]⟩ :=
  ⟨rfl,
    empty_folder_build_succeeds idTrust (strOf "key.pem") (strOf "top") emptyTree [] none [7]
      (by decide) (by decide)⟩

/-- The keys of the dict after an insertion: unchanged when the key was
already present, the key appended otherwise. -/
theorem dictInsert_map_fst (d : List (Str × Str)) (key v : Str) :
    (dictInsert d key v).map Prod.fst =
      if d.any (fun p => decide (p.1 = key)) then d.map Prod.fst
      else d.map Prod.fst ++ [key] := by
  unfold dictInsert
  split
  · rw [List.map_map]
    exact List.map_congr_left (fun p _ => by by_cases h : p.1 = key <;> simp [h])
  · simp

/-- Membership in the keys of the dict after an insertion. -/
theorem mem_dictInsert_keys (d : List (Str × Str)) (key v a : Str) :
    a ∈ (dictInsert d key v).map Prod.fst ↔ a = key ∨ a ∈ d.map Prod.fst := by
  rw [dictInsert_map_fst]
  split
  · rename_i h
    simp only [List.any_eq_true, decide_eq_true_eq] at h
    obtain ⟨p, hp, hpk⟩ := h
    constructor
    · exact Or.inr
    · rintro (rfl | ha)
      · exact hpk ▸ List.mem_map_of_mem Prod.fst hp
      · exact ha
  · simp [or_comm]

/-- Keys already in the accumulator survive the inner signing loop. -/
theorem processFiles_keys_mono (T : Trust) (k : Str) (rel : List Str) :
    ∀ (fs : List FileEntry) (acc r : List (Str × Str)) (a : Str),
      processFiles T k rel fs acc = some r →
      a ∈ acc.map Prod.fst → a ∈ r.map Prod.fst := by
  intro fs
  induction fs with
  | nil =>
    intro acc r a h ha
    simp only [processFiles, Option.some.injEq] at h
    subst h
    exact ha
  | cons g gs ih =>
    intro acc r a h ha
    simp only [processFiles] at h
    by_cases hskip : g.name = getSignaturesLocalFilename ∧ rel = []
    · rw [if_pos hskip] at h
      exact ih acc r a h ha
    · rw [if_neg hskip] at h
      cases hfp : getFilePathInfo rel g with
      | none =>
        rw [hfp] at h
        exact Option.noConfusion h
      | some key =>
        rw [hfp] at h
        dsimp only at h
        cases hfs : getFileSignature T key g k with
        | none =>
          rw [hfs] at h
          exact Option.noConfusion h
        | some s =>
          rw [hfs] at h
          dsimp only at h
          exact ih (dictInsert acc key s) r a h
            ((mem_dictInsert_keys acc key s a).mpr (Or.inr ha))

/-- A successfully processed (non-skipped, inside-root) file's canonical
key ends up among the keys of the inner loop's result. -/
theorem processFiles_key_mem (T : Trust) (k : Str) (rel : List Str) :
    ∀ (fs : List FileEntry) (acc r : List (Str × Str)) (f : FileEntry),
      processFiles T k rel fs acc = some r → f ∈ fs →
      ¬(f.name = getSignaturesLocalFilename ∧ rel = []) → f.escapes = false →
      joinPath (rel ++ [f.name]) ∈ r.map Prod.fst := by
  intro fs
  induction fs with
  | nil => intro acc r f _ hf; exact absurd hf (List.not_mem_nil f)
  | cons g gs ih =>
    intro acc r f h hf hns hesc
    simp only [processFiles] at h
    rcases List.mem_cons.mp hf with rfl | hf2
    · rw [if_neg hns] at h
      simp only [getFilePathInfo, hesc, Bool.false_eq_true, if_false] at h
      cases hfs : getFileSignature T (joinPath (rel ++ [f.name])) f k with
      | none =>
        rw [hfs] at h
        exact Option.noConfusion h
      | some s =>
        rw [hfs] at h
        dsimp only at h
        exact processFiles_keys_mono T k rel gs _ r _ h
          ((mem_dictInsert_keys acc (joinPath (rel ++ [f.name])) s _).mpr (Or.inl rfl))
    · by_cases hskip : g.name = getSignaturesLocalFilename ∧ rel = []
      · rw [if_pos hskip] at h
        exact ih acc r f h hf2 hns hesc
      · rw [if_neg hskip] at h
        cases hfp : getFilePathInfo rel g with
        | none =>
          rw [hfp] at h
          exact Option.noConfusion h
        | some key =>
          rw [hfp] at h
          dsimp only at h
          cases hfs : getFileSignature T key g k with
          | none =>
            rw [hfs] at h
            exact Option.noConfusion h
          | some s =>
            rw [hfs] at h
            dsimp only at h
            exact ih (dictInsert acc key s) r f h hf2 hns hesc

/-- Keys already in the accumulator survive the outer signing loop. -/
theorem processWalk_keys_mono (T : Trust) (k : Str) (ign : List Str) :
    ∀ (ts : List WalkEntry) (acc r : List (Str × Str)) (a : Str),
      processWalk T k ign ts acc = some r →
      a ∈ acc.map Prod.fst → a ∈ r.map Prod.fst := by
  intro ts
  induction ts with
  | nil =>
    intro acc r a h ha
    simp only [processWalk, Option.some.injEq] at h
    subst h
    exact ha
  | cons e es ih =>
    intro acc r a h ha
    simp only [processWalk] at h
    by_cases hb : e.base ∈ ign
    · rw [if_pos hb] at h
      exact ih acc r a h ha
    · rw [if_neg hb] at h
      cases hpf : processFiles T k e.rel e.files acc with
      | none =>
        rw [hpf] at h
        exact Option.noConfusion h
      | some acc2 =>
        rw [hpf] at h
        dsimp only at h
        exact ih acc2 r a h (processFiles_keys_mono T k e.rel e.files acc acc2 a hpf ha)

/-- A successfully processed file of a successful walk contributes its
canonical key to the final per-file mapping. -/
theorem processWalk_key_mem (T : Trust) (k : Str) (ign : List Str) :
    ∀ (ts : List WalkEntry) (acc r : List (Str × Str)) (e : WalkEntry) (f : FileEntry),
      processWalk T k ign ts acc = some r → e ∈ ts → e.base ∉ ign → f ∈ e.files →
      ¬(f.name = getSignaturesLocalFilename ∧ e.rel = []) → f.escapes = false →
      joinPath (e.rel ++ [f.name]) ∈ r.map Prod.fst := by
  intro ts
  induction ts with
  | nil => intro acc r e f _ he; exact absurd he (List.not_mem_nil e)
  | cons e0 es ih =>
    intro acc r e f h he hb hf hns hesc
    simp only [processWalk] at h
    rcases List.mem_cons.mp he with rfl | he2
    · rw [if_neg hb] at h
      cases hpf : processFiles T k e.rel e.files acc with
      | none =>
        rw [hpf] at h
        exact Option.noConfusion h
      | some acc2 =>
        rw [hpf] at h
        dsimp only at h
        exact processWalk_keys_mono T k ign es acc2 r _ h
          (processFiles_key_mem T k e.rel e.files acc acc2 f hpf hf hns hesc)
    · by_cases hb0 : e0.base ∈ ign
      · rw [if_pos hb0] at h
        exact ih acc r e f h he2 hb hf hns hesc
      · rw [if_neg hb0] at h
        cases hpf : processFiles T k e0.rel e0.files acc with
        | none =>
          rw [hpf] at h
          exact Option.noConfusion h
        | some acc2 =>
          rw [hpf] at h
          dsimp only at h
          exact ih acc2 r e f h he2 hb hf hns hesc

/-- At the root triple (`rel = []`), files bearing the manifest's persisted
filename are skipped: removing them beforehand changes nothing. -/
theorem processFiles_root_filter (T : Trust) (k : Str) :
    ∀ (fs : List FileEntry) (acc : List (Str × Str)),
      processFiles T k [] fs acc =
        processFiles T k []
          (fs.filter (fun f => decide (f.name ≠ getSignaturesLocalFilename))) acc := by
  intro fs
  induction fs with
  | nil => intro acc; rfl
  | cons g gs ih =>
    intro acc
    by_cases hg : g.name = getSignaturesLocalFilename
    · rw [List.filter_cons_of_neg (by simp [hg])]
      simp only [processFiles, and_true]
      rw [if_pos hg]
      exact ih acc
    · rw [List.filter_cons_of_pos (by simp [hg])]
      simp only [processFiles, and_true]
      rw [if_neg hg, if_neg hg]
      cases getFilePathInfo [] g with
      | none => rfl
      | some key =>
        dsimp only
        cases getFileSignature T key g k with
        | none => rfl
        | some s => exact ih (dictInsert acc key s)

/-- Removing root-level files bearing the manifest filename does not change
the outcome of the build at all. -/
theorem signFolder_root_manifest_filter (T : Trust) (pkp base : Str)
    (files : List FileEntry) (subs : DirList) (ign : List Str) (pw : Option Str) :
    signFolder T pkp base (FSTree.node files subs) ign pw =
      signFolder T pkp base
        (FSTree.node
          (files.filter (fun f => decide (f.name ≠ getSignaturesLocalFilename))) subs)
        ign pw := by
  unfold signFolder
  cases T.loadPrivateKey pkp (normalizePassword pw) with
  | none => rfl
  | some k =>
    dsimp only
    have hw : processWalk T k ign (walkTree base (FSTree.node files subs)) [] =
        processWalk T k ign (walkTree base (FSTree.node
          (files.filter (fun f => decide (f.name ≠ getSignaturesLocalFilename))) subs)) [] := by
      simp only [walkTree, processWalk]
      by_cases hb : base ∈ ign
      · rw [if_pos hb, if_pos hb]
      · rw [if_neg hb, if_neg hb, ← processFiles_root_filter]
    rw [hw]

/-- C7: a file bearing the manifest's fixed persisted filename is excluded
from the per-file mapping exactly when it is directly at the root (removing
such root-level files changes nothing), while a file of that name in any
subfolder of a successful build is signed and included like any other
file. -/
theorem manifest_filename_skip_root_only (T : Trust) (pkp base : Str)
    (files : List FileEntry) (subs : DirList) (ign : List Str) (pw : Option Str) :
    (signFolder T pkp base (FSTree.node files subs) ign pw =
      signFolder T pkp base
        (FSTree.node
          (files.filter (fun f => decide (f.name ≠ getSignaturesLocalFilename))) subs)
        ign pw) ∧
    (∀ (sigs : List (Str × Str)) (s : Option Str) (e : WalkEntry) (f : FileEntry),
      (signFolder T pkp base (FSTree.node files subs) ign pw).written =
        some [(getRootSignatureCategory, ManifestField.mapping sigs),
              (getRootSignedManifestKey, ManifestField.selfsig s)] →
      e ∈ walkTree base (FSTree.node files subs) → e.base ∉ ign → e.rel ≠ [] →
      f ∈ e.files → f.name = getSignaturesLocalFilename →
      joinPath (e.rel ++ [f.name]) ∈ sigs.map Prod.fst) := by
  refine ⟨signFolder_root_manifest_filter T pkp base files subs ign pw, ?_⟩
  intro sigs s e f hw he hb hrel hf hname
  unfold signFolder at hw
  cases hk : T.loadPrivateKey pkp (normalizePassword pw) with
  | none =>
    rw [hk] at hw
    exact Option.noConfusion hw
  | some k =>
    rw [hk] at hw
    dsimp only at hw
    cases hpw : processWalk T k ign (walkTree base (FSTree.node files subs)) [] with
    | none =>
      rw [hpw] at hw
      exact Option.noConfusion hw
    | some m =>
      rw [hpw] at hw
      dsimp only at hw
      simp only [Option.some.injEq, List.cons.injEq, Prod.mk.injEq, and_true, true_and,
        ManifestField.mapping.injEq, ManifestField.selfsig.injEq] at hw
      obtain ⟨hm, -⟩ := hw
      subst hm
      have hns : ¬(f.name = getSignaturesLocalFilename ∧ e.rel = []) :=
        fun hc => hrel hc.2
      have hall := (processWalk_isSome_iff T k ign
        (walkTree base (FSTree.node files subs)) []).mp (by rw [hpw]; rfl)
      have hesc := (hall e he hb f hf hns).1
      exact processWalk_key_mem T k ign (walkTree base (FSTree.node files subs)) [] m e f
        hpw he hb hf hns hesc

theorem manifest_filename_skip_root_only_witness :
    (signFolder idTrust (strOf "key.pem") (strOf "top")
        (FSTree.node rootManifestFiles rootManifestSubs) [] none =
      signFolder idTrust (strOf "key.pem") (strOf "top")
        (FSTree.node (rootManifestFiles.filter
          (fun f => decide (f.name ≠ getSignaturesLocalFilename))) rootManifestSubs)
        [] none) ∧
    joinPath ([strOf "sub"] ++ [strOf "signature.json"]) ∈
      ([(strOf "sub/signature.json",
          strOf "sub/signature.json" ++ ([109, 7] : Str))].map Prod.fst) :=
  ⟨(manifest_filename_skip_root_only idTrust (strOf "key.pem") (strOf "top")
      rootManifestFiles rootManifestSubs [] none).1,
   (manifest_filename_skip_root_only idTrust (strOf "key.pem") (strOf "top")
      rootManifestFiles rootManifestSubs [] none).2
     [(strOf "sub/signature.json", strOf "sub/signature.json" ++ [109, 7])]
     (some (strOf "sub/signature.json" ++ strOf "sub/signature.json" ++ [109, 7, 7]))
     ⟨[strOf "sub"], strOf "sub", [⟨strOf "signature.json", strOf "m", false⟩]⟩
     ⟨strOf "signature.json", strOf "m", false⟩
     (by decide) (by decide) (by decide) (by decide) (by decide) (by decide)⟩

/-- C3 is violated by the code: the walk only skips the files directly
inside an ignored directory (the `continue` never prunes `dirnames`), so
with `__pycache__` ignored, `__pycache__/cached.py` is indeed skipped but
`__pycache__/sub/deep.py` — one level deeper below the ignored directory —
is signed and included in the persisted per-file mapping, and the build
reports success. -/
theorem ignored_dir_subtree_still_signed :
    (signFolder idTrust (strOf "key.pem") (strOf "plugin") pycTree
        [strOf "__pycache__"] none).ok = true ∧
    strOf "__pycache__/sub/deep.py" ∈
      (writtenMapping (signFolder idTrust (strOf "key.pem") (strOf "plugin") pycTree
        [strOf "__pycache__"] none)).map Prod.fst ∧
    strOf "__pycache__/cached.py" ∉
      (writtenMapping (signFolder idTrust (strOf "key.pem") (strOf "plugin") pycTree
        [strOf "__pycache__"] none)).map Prod.fst := by
  exact ⟨by decide, by decide, by decide⟩

/-- C5 is violated by the code: `mainfunc` discards the boolean returned by
`signFolder` and falls off the end, returning `None`, so
`sys.exit(mainfunc())` always reports exit status 0 — also for a run whose
`signFolder` fails (here: the private key fails to load). -/
theorem exit_status_always_success :
    (∀ (T : Trust) (tree : FSTree) (pkp folder : Str) (ign : List Str) (password : Str),
      scriptExitStatus (mainfunc T tree pkp folder ign password) = 0) ∧
    (signFolder noKeyTrust (strOf "key.pem") (strOf "top") emptyTree [] (some [])).ok
        = false ∧
    scriptExitStatus
      (mainfunc noKeyTrust emptyTree (strOf "key.pem") (strOf "top") [] []) = 0 := by
  refine ⟨?_, by decide, by decide⟩
  intro T tree pkp folder ign password
  unfold mainfunc scriptExitStatus
  rfl

end UraniumSign
